import Mathlib

/-!
Verification development for the `model_foundry` sweep engine
(`src/main.rs`).  The Rust program loads bid/ask ticks from a CSV file,
aggregates them into fixed-interval OHLC candles, evaluates a Cartesian
grid of strategy parameters with a deterministic stub evaluator, and
ranks the resulting candidates by a score.

Shallow embedding conventions:
* `u64` timestamps become `Nat`; `u32` arithmetic is taken modulo `2^32`
  where the source performs `u32` operations.
* `f64` prices and metrics become `ℚ`; decimal literals in the source
  (`0.05`, `1.5`, ...) are read as the exact rationals they denote.
* The tick CSV is modelled as a list of lines, each line a `List Char`;
  the numeric field parsers (`str::parse::<u64>` / `str::parse::<f64>`)
  are abstract parameters `pn`/`pf`, since no claim depends on which
  strings parse, only on the `unwrap_or(0)` fallback policy.
* The `while` loop advancing the candle bucket is embedded with explicit
  fuel (`advanceBucketFuel`); `advanceBucket` runs it with fuel
  `ts + 1 - bucket_end`, which is proved sufficient when `interval > 0`.
* The wall clock read by `now_millis` is an explicit `stamp` parameter.
* File output is modelled by returning the list of records written.
-/

-- -------- data structures (src/main.rs lines 49-98) -------- --

/-- Rust struct `Tick { ts_ms: u64, bid: f64, ask: f64 }`. -/
structure Tick where
  ts_ms : Nat
  bid : ℚ
  ask : ℚ
deriving DecidableEq

/-- Rust struct `Candle`; the field `open` is `open_` because `open` is a
Lean keyword. -/
structure Candle where
  start_ts : Nat
  end_ts : Nat
  open_ : ℚ
  high : ℚ
  low : ℚ
  close : ℚ
  mid_spread : ℚ
deriving DecidableEq

/-- Rust struct `Metrics`. -/
structure Metrics where
  pf_bt : ℚ
  dd_bt : ℚ
  trades : Nat
  winrate : ℚ
  pnl : ℚ
deriving DecidableEq

/-- Rust struct `ParamsOut`. -/
structure ParamsOut where
  donch_n : Nat
  rr_min : ℚ
  max_spread : ℚ
  session_filter : String
deriving DecidableEq

/-- Rust struct `CandidateOut`. -/
structure CandidateOut where
  model_id : String
  symbol : String
  params : ParamsOut
  metrics : Metrics
deriving DecidableEq

-- -------- tick loader (src/main.rs lines 109-134) -------- --

/-- Rust `line.split(',')`: split a line at every comma, keeping empty
pieces (so the result always has at least one element). -/
def splitOnComma : List Char → List (List Char)
  | [] => [[]]
  | c :: cs =>
    if c = ',' then [] :: splitOnComma cs
    else
      match splitOnComma cs with
      | [] => [[c]]
      | p :: ps => (c :: p) :: ps

/-- Rust `str::trim`: drop leading and trailing whitespace. -/
def trimChars (l : List Char) : List Char :=
  ((l.dropWhile Char.isWhitespace).reverse.dropWhile Char.isWhitespace).reverse

/-- Does `pat` occur at the head of `l`? (helper for substring search). -/
def startsWithChars : List Char → List Char → Bool
  | [], _ => true
  | _ :: _, [] => false
  | p :: ps, c :: cs => p == c && startsWithChars ps cs

/-- Rust `String::contains(pat)`: does `pat` occur anywhere in `l`? -/
def containsChars (pat : List Char) : List Char → Bool
  | [] => pat.isEmpty
  | c :: cs => startsWithChars pat (c :: cs) || containsChars pat cs

/-- Header detection of `load_ticks` (line 119): the first line is
skipped iff it contains "ts_ms", "bid" and "ask" as substrings. -/
def isTickHeader (line : List Char) : Bool :=
  containsChars "ts_ms".toList line && containsChars "bid".toList line &&
    containsChars "ask".toList line

/-- Per-line body of the `load_ticks` loop (lines 123-131): split on
commas, drop the line if it has fewer than three fields, otherwise build
one `Tick`, defaulting each unparsable numeric field to `0`
(`unwrap_or(0)` / `unwrap_or(0.0)`).  `pn` and `pf` abstract
`str::parse::<u64>` and `str::parse::<f64>`. -/
def parseTickLine (pn : List Char → Option Nat) (pf : List Char → Option ℚ)
    (line : List Char) : Option Tick :=
  let parts := splitOnComma line
  if parts.length < 3 then
    none
  else
    some
      { ts_ms := (pn (trimChars (parts.getD 0 []))).getD 0
        bid := (pf (trimChars (parts.getD 1 []))).getD 0
        ask := (pf (trimChars (parts.getD 2 []))).getD 0 }

/-- Rust `load_ticks` (lines 110-134) over an already-read list of
lines: the first line is skipped when it looks like a header, every
other line goes through `parseTickLine`; lines it drops produce nothing
and no error is possible beyond I/O (not modelled). -/
def load_ticks (pn : List Char → Option Nat) (pf : List Char → Option ℚ)
    (lines : List (List Char)) : List Tick :=
  match lines with
  | [] => []
  | l0 :: rest =>
    if isTickHeader l0 then rest.filterMap (parseTickLine pn pf)
    else (l0 :: rest).filterMap (parseTickLine pn pf)

-- -------- candle aggregator (src/main.rs lines 137-216) -------- --

/-- Loop state of `ticks_to_candles`: the mutable locals of the Rust
function plus the accumulated output vector. -/
structure AggState where
  bucket_start : Nat
  bucket_end : Nat
  cur_open : ℚ
  cur_high : ℚ
  cur_low : ℚ
  cur_close : ℚ
  spread_sum : ℚ
  spread_cnt : Nat
  candles : List Candle
deriving DecidableEq

/-- The spread contribution of one tick: `(tk.ask - tk.bid).abs()`. -/
def tickSpread (tk : Tick) : ℚ := |tk.ask - tk.bid|

/-- Candle flushed from the current bucket (lines 157-170 and 200-213):
average spread is `sum / count`, or `0` when the count is zero. -/
def flushCandle (s : AggState) : Candle :=
  { start_ts := s.bucket_start
    end_ts := s.bucket_end
    open_ := s.cur_open
    high := s.cur_high
    low := s.cur_low
    close := s.cur_close
    mid_spread :=
      if 0 < s.spread_cnt then s.spread_sum / (s.spread_cnt : ℚ) else 0 }

/-- Fuel-indexed embedding of the bucket-advancing loop (lines 173-176):
`while tk.ts_ms >= bucket_end { bucket_start = bucket_end; bucket_end =
bucket_start + interval_ms; }`.  Each unit of fuel allows one loop
iteration; exhausted fuel returns the current state. -/
def advanceBucketFuel : Nat → Nat → Nat → Nat → Nat → Nat × Nat
  | 0, _, bs, be, _ => (bs, be)
  | fuel + 1, ts, bs, be, interval_ms =>
    if be ≤ ts then advanceBucketFuel fuel ts be (be + interval_ms) interval_ms
    else (bs, be)

/-- The bucket-advancing loop run with fuel `ts + 1 - bucket_end`, which
is enough for the loop to reach its exit condition whenever
`interval_ms > 0` (each iteration strictly increases `bucket_end`). -/
def advanceBucket (ts bs be interval_ms : Nat) : Nat × Nat :=
  advanceBucketFuel (ts + 1 - be) ts bs be interval_ms

/-- One iteration of the main `for tk in ticks` loop (lines 154-197). -/
def stepTick (interval_ms : Nat) (s : AggState) (tk : Tick) : AggState :=
  if s.bucket_end ≤ tk.ts_ms then
    let c := flushCandle s
    let p := advanceBucket tk.ts_ms s.bucket_start s.bucket_end interval_ms
    { bucket_start := p.1
      bucket_end := p.2
      cur_open := tk.bid
      cur_high := tk.bid
      cur_low := tk.bid
      cur_close := tk.bid
      spread_sum := tickSpread tk
      spread_cnt := 1
      candles := s.candles ++ [c] }
  else
    { s with
      cur_high := if s.cur_high < tk.bid then tk.bid else s.cur_high
      cur_low := if tk.bid < s.cur_low then tk.bid else s.cur_low
      cur_close := tk.bid
      spread_sum := s.spread_sum + tickSpread tk
      spread_cnt := s.spread_cnt + 1 }

/-- Initial loop state seeded from the first tick (lines 144-152). -/
def initState (t0 : Tick) (interval_ms : Nat) : AggState :=
  { bucket_start := t0.ts_ms
    bucket_end := t0.ts_ms + interval_ms
    cur_open := t0.bid
    cur_high := t0.bid
    cur_low := t0.bid
    cur_close := t0.bid
    spread_sum := 0
    spread_cnt := 0
    candles := [] }

/-- Rust `ticks_to_candles` (lines 137-216): empty input gives an empty
output; otherwise fold the loop body over all ticks (the Rust `for` loop
also revisits `ticks[0]`) and unconditionally flush the final bucket. -/
def ticks_to_candles (ticks : List Tick) (interval_ms : Nat) : List Candle :=
  match ticks with
  | [] => []
  | t0 :: _ =>
    let fin := List.foldl (stepTick interval_ms) (initState t0 interval_ms) ticks
    fin.candles ++ [flushCandle fin]

-- -------- strategy evaluator (src/main.rs lines 221-278) -------- --

/-- Rust `run_strategy`: a deterministic stub deriving `Metrics` from the
scalar parameters only.  `trades` is `u32` arithmetic, hence the
`% 2^32`; `candles` is accepted for signature compatibility and only its
length is taken (`let _dummy = candles.len()`). -/
def run_strategy (candles : List Candle) (donch_n : Nat) (rr_min : ℚ)
    (max_spread : ℚ) (session_filter : String) : Metrics :=
  let trades : Nat := (1000 + donch_n * 5) % 4294967296
  let winrate : ℚ := 0.50 + (rr_min - 1.5) / 20
  let session_bonus : ℚ :=
    if session_filter = "london" then 0.05
    else if session_filter = "nyopen" then 0.04
    else if session_filter = "asia" then 0.03
    else 0.02
  let spread_penalty : ℚ :=
    if 2.5 < max_spread then 0.05
    else if 2.0 < max_spread then 0.03
    else 0.0
  let pf_bt : ℚ :=
    1.5 + (donch_n : ℚ) / 200 + (rr_min - 1.5) / 5 + session_bonus -
      spread_penalty
  let dd_bt : ℚ :=
    0.04 + (donch_n : ℚ) / 1000 + rr_min / 100 + spread_penalty / 2
  let pnl : ℚ :=
    (trades : ℚ) * max (pf_bt - 1) 0 * ((donch_n : ℚ) / 40) * 0.01
  let _dummy := candles.length
  { pf_bt := pf_bt
    dd_bt := dd_bt
    trades := trades
    winrate := winrate
    pnl := pnl }

-- -------- candidate builder (src/main.rs lines 281-306) -------- --

/-- Fixed two-decimal rendering of a rational, modelling the `{:.2}`
format used for `rr_min` in the model id (the exact rounding mode of
Rust float formatting is immaterial to every claim). -/
def formatQ2 (q : ℚ) : String :=
  let n : Nat := (|q| * 100 + 1 / 2).floor.toNat
  (if q < 0 then "-" else "") ++ toString (n / 100) ++ "." ++
    (if n % 100 < 10 then "0" else "") ++ toString (n % 100)

/-- The `format!` expression of `build_candidate` (lines 290-293), with
the wall-clock millisecond reading passed in as `stamp`. -/
def formatModelId (symbol : String) (donch_n : Nat) (rr_min : ℚ)
    (session_filter : String) (stamp : Nat) : String :=
  symbol ++ "_donch" ++ toString donch_n ++ "_rr" ++ formatQ2 rr_min ++ "_" ++
    session_filter ++ "_" ++ toString stamp

/-- Rust `build_candidate` (lines 281-306); `now_millis()` is modelled by
the explicit `stamp` argument. -/
def build_candidate (symbol : String) (donch_n : Nat) (rr_min : ℚ)
    (max_spread : ℚ) (session_filter : String) (metrics : Metrics)
    (stamp : Nat) : CandidateOut :=
  { model_id := formatModelId symbol donch_n rr_min session_filter stamp
    symbol := symbol
    params :=
      { donch_n := donch_n
        rr_min := rr_min
        max_spread := max_spread
        session_filter := session_filter }
    metrics := metrics }

-- -------- ranker / writer (src/main.rs lines 309-345) -------- --

/-- Rust `score_candidate`: `pf_bt - dd_bt * 10`, higher is better. -/
def score_candidate (c : CandidateOut) : ℚ :=
  c.metrics.pf_bt - c.metrics.dd_bt * 10

/-- Rust `write_top_candidates_jsonl` (lines 332-345): sort a copy of the
candidates by descending score (`sort_by` is a stable merge sort), keep
`min top_k len` of them, write those records and return the count.  The
file write is modelled by returning the list of records written together
with the returned count. -/
def write_top_candidates_jsonl (cands : List CandidateOut) (top_k : Nat) :
    List CandidateOut × Nat :=
  let v := cands.mergeSort fun a b =>
    decide (score_candidate b ≤ score_candidate a)
  let kept := min top_k v.length
  (v.take kept, kept)

-- -------- sweep engine (src/main.rs lines 389-400) -------- --

/-- The nested sweep loops of `main` (lines 389-400): `donch_n`
outermost, then `rr_min`, then `session_filter`, then `max_spread`
innermost; one candidate per grid point.  All candidates of one run
share the candle sequence and (in this model) one clock stamp. -/
def sweepCandidates (symbol : String) (candles : List Candle)
    (donch_vec : List Nat) (rr_vec : List ℚ) (sess_vec : List String)
    (spread_vec : List ℚ) (stamp : Nat) : List CandidateOut :=
  donch_vec.flatMap fun d =>
    rr_vec.flatMap fun rr =>
      sess_vec.flatMap fun sess =>
        spread_vec.map fun sp =>
          build_candidate symbol d rr sp sess
            (run_strategy candles d rr sp sess) stamp

-- -------- specification-side measures -------- --

/-- Parameter tuple of a candidate, used to state enumeration order. -/
def paramsOfCandidate (c : CandidateOut) : Nat × ℚ × String × ℚ :=
  (c.params.donch_n, c.params.rr_min, c.params.session_filter,
    c.params.max_spread)

/-- Index of the window (anchored at the first tick's timestamp, width
`interval_ms`) containing timestamp `ts`. -/
def windowIdx (anchor interval_ms ts : Nat) : Nat :=
  (ts - anchor) / interval_ms

/-- Number of distinct windows of width `interval_ms`, anchored at the
first tick's timestamp, containing at least one tick. -/
def numWindows (ticks : List Tick) (interval_ms : Nat) : Nat :=
  match ticks with
  | [] => 0
  | t0 :: _ =>
    ((ticks.map fun t => windowIdx t0.ts_ms interval_ms t.ts_ms).dedup).length

/-- The ticks whose timestamps lie in the half-open window `[lo, hi)`. -/
def ticksBetween (ticks : List Tick) (lo hi : Nat) : List Tick :=
  ticks.filter fun t => decide (lo ≤ t.ts_ms) && decide (t.ts_ms < hi)

/-- The ticks of the input that fall in a candle's window. -/
def ticksInWindow (ticks : List Tick) (c : Candle) : List Tick :=
  ticksBetween ticks c.start_ts c.end_ts

/-- Non-decreasing timestamps, as assumed of the tick input. -/
def TsMono (ticks : List Tick) : Prop :=
  List.Pairwise (fun a b => a.ts_ms ≤ b.ts_ms) ticks

instance (ticks : List Tick) : Decidable (TsMono ticks) := by
  unfold TsMono; infer_instance

/-- Shape invariant of one emitted candle: window width, OHLC bounds and
a nonnegative average spread. -/
def CandleWf (interval_ms : Nat) (c : Candle) : Prop :=
  c.end_ts = c.start_ts + interval_ms ∧ c.low ≤ c.open_ ∧ c.low ≤ c.close ∧
    c.open_ ≤ c.high ∧ c.close ≤ c.high ∧ 0 ≤ c.mid_spread

/-- Shape invariant of the aggregation loop state: bucket width, OHLC
bounds of the in-progress candle, nonnegative spread accumulator, and
`CandleWf` for everything already flushed. -/
def StateWf (interval_ms : Nat) (s : AggState) : Prop :=
  s.bucket_end = s.bucket_start + interval_ms ∧ s.cur_low ≤ s.cur_open ∧
    s.cur_low ≤ s.cur_close ∧ s.cur_open ≤ s.cur_high ∧
    s.cur_close ≤ s.cur_high ∧ 0 ≤ s.spread_sum ∧
    ∀ c ∈ s.candles, CandleWf interval_ms c

/-- Full accounting invariant of the aggregation loop, relating the
state after processing the non-empty prefix `p` (whose first tick is
`t0` and last tick is `tl`) to that prefix: the current bucket is the
window of `tl`; the spread accumulator counts and sums exactly the
prefix ticks inside the current bucket; one candle was flushed per
distinct earlier window; and every flushed candle lies entirely below
the current bucket and carries the arithmetic mean of the spreads of the
prefix ticks in its window. -/
def AggInv (interval_ms : Nat) (t0 : Tick) (p : List Tick) (tl : Tick)
    (s : AggState) : Prop :=
  s.bucket_start =
      t0.ts_ms + windowIdx t0.ts_ms interval_ms tl.ts_ms * interval_ms ∧
  s.bucket_end = s.bucket_start + interval_ms ∧
  s.spread_cnt = (ticksBetween p s.bucket_start s.bucket_end).length ∧
  s.spread_sum =
      ((ticksBetween p s.bucket_start s.bucket_end).map tickSpread).sum ∧
  1 ≤ s.spread_cnt ∧
  s.candles.length + 1 =
      ((p.map fun t => windowIdx t0.ts_ms interval_ms t.ts_ms).dedup).length ∧
  ∀ c ∈ s.candles, c.end_ts ≤ s.bucket_start ∧ ticksInWindow p c ≠ [] ∧
    c.mid_spread = ((ticksInWindow p c).map tickSpread).sum /
      ((ticksInWindow p c).length : ℚ)

-- -------- helper lemmas: the bucket-advancing loop -------- --

theorem advanceBucketFuel_eq_advanceBucket (i : Nat) (hi : 0 < i) :
    ∀ n ts bs be, ts + 1 - be ≤ n →
      advanceBucketFuel n ts bs be i = advanceBucket ts bs be i := by
  intro n
  induction n using Nat.strong_induction_on with
  | _ n ih =>
    intro ts bs be hn
    by_cases hbe : be ≤ ts
    · have hn1 : 1 ≤ n := by omega
      obtain ⟨m, rfl⟩ : ∃ m, n = m + 1 := ⟨n - 1, by omega⟩
      have hL : advanceBucketFuel (m + 1) ts bs be i =
          advanceBucketFuel m ts be (be + i) i := by
        simp [advanceBucketFuel, hbe]
      have hR : advanceBucket ts bs be i =
          advanceBucketFuel (ts - be) ts be (be + i) i := by
        have : ts + 1 - be = (ts - be) + 1 := by omega
        simp only [advanceBucket, this, advanceBucketFuel, if_pos hbe]
      rw [hL, hR]
      rw [ih m (by omega) ts be (be + i) (by omega)]
      rw [ih (ts - be) (by omega) ts be (be + i) (by omega)]
    · push_neg at hbe
      have h0 : ts + 1 - be = 0 := by omega
      have hR : advanceBucket ts bs be i = (bs, be) := by
        simp [advanceBucket, h0, advanceBucketFuel]
      rw [hR]
      match n with
      | 0 => rfl
      | m + 1 => simp [advanceBucketFuel, Nat.not_le.mpr hbe]

theorem advanceBucket_of_lt (ts bs be i : Nat) (h : ts < be) :
    advanceBucket ts bs be i = (bs, be) := by
  have h0 : ts + 1 - be = 0 := by omega
  simp [advanceBucket, h0, advanceBucketFuel]

theorem advanceBucket_closed (i : Nat) (hi : 0 < i) :
    ∀ n ts bs be, ts + 1 - be = n → be ≤ ts →
      advanceBucket ts bs be i =
        (be + (ts - be) / i * i, be + (ts - be) / i * i + i) := by
  intro n
  induction n using Nat.strong_induction_on with
  | _ n ih =>
    intro ts bs be hn hbe
    have hstep : advanceBucket ts bs be i =
        advanceBucketFuel (ts - be) ts be (be + i) i := by
      have : ts + 1 - be = (ts - be) + 1 := by omega
      simp only [advanceBucket, this, advanceBucketFuel, if_pos hbe]
    rw [hstep,
      advanceBucketFuel_eq_advanceBucket i hi (ts - be) ts be (be + i) (by omega)]
    by_cases h2 : be + i ≤ ts
    · rw [ih (ts + 1 - (be + i)) (by omega) ts be (be + i) rfl h2]
      have hdiv : (ts - be) / i = (ts - (be + i)) / i + 1 := by
        have := Nat.div_eq_sub_div hi (show i ≤ ts - be by omega)
        have harg : ts - be - i = ts - (be + i) := by omega
        rw [harg] at this
        exact this
      rw [hdiv]
      have : ((ts - (be + i)) / i + 1) * i = (ts - (be + i)) / i * i + i :=
        Nat.succ_mul _ _
      rw [this]
      simp only [Prod.mk.injEq]
      constructor <;> omega
    · push_neg at h2
      rw [advanceBucket_of_lt ts be (be + i) i h2]
      have : (ts - be) / i = 0 := Nat.div_eq_of_lt (by omega)
      rw [this]
      simp

theorem advanceBucket_snd_eq_fst_add (ts bs be i : Nat) (hi : 0 < i)
    (h : be = bs + i) :
    (advanceBucket ts bs be i).2 = (advanceBucket ts bs be i).1 + i := by
  by_cases hbe : be ≤ ts
  · rw [advanceBucket_closed i hi (ts + 1 - be) ts bs be rfl hbe]
  · push_neg at hbe
    rw [advanceBucket_of_lt ts bs be i hbe, h]

theorem advanceBucket_exit (ts bs be i : Nat) (hi : 0 < i) :
    ts < (advanceBucket ts bs be i).2 := by
  by_cases hbe : be ≤ ts
  · rw [advanceBucket_closed i hi (ts + 1 - be) ts bs be rfl hbe]
    have hmod : (ts - be) % i < i := Nat.mod_lt _ hi
    have hdm : (ts - be) / i * i + (ts - be) % i = ts - be :=
      Nat.div_add_mod' (ts - be) i
    simp only []
    omega
  · rw [advanceBucket_of_lt ts bs be i (by omega)]
    omega

-- -------- C1 -------- --

/-- C1: on the tick sequence `[(0,1,1),(30000,1,1),(70000,2,2)]` with
`interval_ms = 60000`, `ticks_to_candles` returns exactly the two
candles `[0,60000)` with OHLC `1` and average spread `0`, and
`[60000,120000)` with OHLC `2`. -/
theorem ticks_to_candles_example :
    ticks_to_candles [⟨0, 1, 1⟩, ⟨30000, 1, 1⟩, ⟨70000, 2, 2⟩] 60000 =
      [⟨0, 60000, 1, 1, 1, 1, 0⟩, ⟨60000, 120000, 2, 2, 2, 2, 0⟩] := by
  simp [ticks_to_candles, stepTick, initState, flushCandle, advanceBucket,
    advanceBucketFuel, tickSpread]

-- -------- C7 -------- --

/-- C7: `run_strategy` is a pure function of its scalar parameters only:
its result is identical for any two candle sequences, hence re-running
with identical parameters yields identical `Metrics`. -/
theorem run_strategy_candle_independent (c1 c2 : List Candle) (donch_n : Nat)
    (rr_min max_spread : ℚ) (session_filter : String) :
    run_strategy c1 donch_n rr_min max_spread session_filter =
      run_strategy c2 donch_n rr_min max_spread session_filter := rfl

-- -------- C9 -------- --

/-- C9: the bucket-advancing loop of `ticks_to_candles` terminates for
every positive `interval_ms`: some finite fuel `n` makes the fuel-indexed
loop agree with `advanceBucket` (the loop as run by `stepTick`), reach a
state whose `bucket_end` exceeds the tick's timestamp (the loop's exit
condition), and adding further fuel changes nothing. -/
theorem aggregation_loop_terminates (ts bs be interval_ms : Nat)
    (hi : 0 < interval_ms) :
    ∃ n, advanceBucketFuel n ts bs be interval_ms =
          advanceBucket ts bs be interval_ms ∧
        ts < (advanceBucketFuel n ts bs be interval_ms).2 ∧
        ∀ m, n ≤ m → advanceBucketFuel m ts bs be interval_ms =
          advanceBucketFuel n ts bs be interval_ms := by
  refine ⟨ts + 1 - be, rfl, ?_, ?_⟩
  · exact advanceBucket_exit ts bs be interval_ms hi
  · intro m hm
    exact advanceBucketFuel_eq_advanceBucket interval_ms hi m ts bs be hm

/-- Witness for C9 at the concrete loop entry of the C1 trace. -/
theorem aggregation_loop_terminates_witness :
    ∃ n, advanceBucketFuel n 70000 0 60000 60000 =
          advanceBucket 70000 0 60000 60000 ∧
        70000 < (advanceBucketFuel n 70000 0 60000 60000).2 ∧
        ∀ m, n ≤ m → advanceBucketFuel m 70000 0 60000 60000 =
          advanceBucketFuel n 70000 0 60000 60000 :=
  aggregation_loop_terminates 70000 0 60000 60000 (by decide)

-- -------- C4 -------- --

theorem flatMap_length_const {α β : Type} (l : List α) (f : α → List β)
    (n : Nat) (h : ∀ a ∈ l, (f a).length = n) :
    (l.flatMap f).length = l.length * n := by
  induction l with
  | nil => simp
  | cons a t ih =>
    have ha : (f a).length = n := h a (by simp)
    have ht : (t.flatMap f).length = t.length * n :=
      ih fun x hx => h x (by simp [hx])
    simp only [List.flatMap_cons, List.length_append, ha, ht,
      List.length_cons, Nat.succ_mul]
    omega

/-- C4: the sweep enumerates the full Cartesian product of the four
non-empty parameter dimensions, nesting `donch_n` outermost, then
`rr_min`, then `session_filter`, then `max_spread` innermost; on the grid
`donch_n=[20,30]`, `rr_min=[1.8]`, `session_filter=["london"]`,
`max_spread=[2.5]` it yields exactly two candidates, `donch_n = 20`
first and `donch_n = 30` second. -/
theorem sweep_cartesian_product (symbol : String) (candles : List Candle)
    (dv : List Nat) (rv : List ℚ) (sv : List String) (pv : List ℚ)
    (stamp : Nat) (_h1 : dv ≠ []) (_h2 : rv ≠ []) (_h3 : sv ≠ [])
    (_h4 : pv ≠ []) :
    (sweepCandidates symbol candles dv rv sv pv stamp).length =
        dv.length * (rv.length * (sv.length * pv.length)) ∧
    (sweepCandidates symbol candles dv rv sv pv stamp).map paramsOfCandidate =
      (dv.flatMap fun d => rv.flatMap fun r => sv.flatMap fun s =>
        pv.map fun sp => (d, r, s, sp)) ∧
    (sweepCandidates symbol candles [20, 30] [1.8] ["london"] [2.5] stamp).map
        paramsOfCandidate =
      [(20, 1.8, "london", 2.5), (30, 1.8, "london", 2.5)] := by
  refine ⟨?_, ?_, rfl⟩
  · unfold sweepCandidates
    refine flatMap_length_const dv _ _ fun d _ => ?_
    refine flatMap_length_const rv _ _ fun r _ => ?_
    refine flatMap_length_const sv _ _ fun s _ => ?_
    simp
  · unfold sweepCandidates
    simp only [List.map_flatMap, List.map_map]
    rfl

/-- Witness for C4 on the two-element grid of the claim. -/
theorem sweep_cartesian_product_witness :
    (sweepCandidates "XAUUSD" [] [20, 30] [1.8] ["london"] [2.5] 0).length =
        2 ∧
    (sweepCandidates "XAUUSD" [] [20, 30] [1.8] ["london"] [2.5] 0).map
        paramsOfCandidate =
      [(20, 1.8, "london", 2.5), (30, 1.8, "london", 2.5)] := by
  have h := sweep_cartesian_product "XAUUSD" [] [20, 30] [1.8] ["london"]
    [2.5] 0 (by simp) (by simp) (by simp) (by simp)
  exact ⟨h.1.trans (by norm_num), h.2.2⟩

-- -------- C5 -------- --

/-- C5: `write_top_candidates_jsonl` writes a sequence sorted
non-increasingly by `score_candidate`, of length `min top_k
(number of candidates)`, and returns exactly that length. -/
theorem write_top_candidates_sorted (cands : List CandidateOut)
    (top_k : Nat) :
    ((write_top_candidates_jsonl cands top_k).1).Sorted
        (fun a b => score_candidate b ≤ score_candidate a) ∧
    (write_top_candidates_jsonl cands top_k).1.length =
        min top_k cands.length ∧
    (write_top_candidates_jsonl cands top_k).2 = min top_k cands.length := by
  unfold write_top_candidates_jsonl
  have hsorted : List.Pairwise
      (fun a b =>
        (fun a b : CandidateOut =>
          decide (score_candidate b ≤ score_candidate a)) a b = true)
      (cands.mergeSort fun a b =>
        decide (score_candidate b ≤ score_candidate a)) := by
    refine List.sorted_mergeSort ?_ ?_ cands
    · intro a b c hab hbc
      simp only [decide_eq_true_eq] at hab hbc ⊢
      exact le_trans hbc hab
    · intro a b
      simp only [Bool.or_eq_true, decide_eq_true_eq]
      exact le_total _ _
  refine ⟨?_, ?_, ?_⟩
  · exact List.Pairwise.sublist (List.take_sublist _ _)
      (hsorted.imp fun h => of_decide_eq_true h)
  · simp only [List.length_take, List.length_mergeSort]
    omega
  · simp only [List.length_mergeSort]

-- -------- C6 -------- --

/-- C6: the tick loader's lenient row policy: a line splitting into
fewer than three comma-separated fields yields no tick; a line with at
least three fields yields exactly one tick whose unparsable numeric
fields default to `0`; and `load_ticks` never fails on malformed
content: every output tick comes from some input line and the output is
no longer than the input. -/
theorem load_ticks_lenient (pn : List Char → Option Nat)
    (pf : List Char → Option ℚ) (line : List Char)
    (lines : List (List Char)) :
    ((splitOnComma line).length < 3 → parseTickLine pn pf line = none) ∧
    (3 ≤ (splitOnComma line).length →
      ∃ t, parseTickLine pn pf line = some t ∧
        t.ts_ms = (pn (trimChars ((splitOnComma line).getD 0 []))).getD 0 ∧
        t.bid = (pf (trimChars ((splitOnComma line).getD 1 []))).getD 0 ∧
        t.ask = (pf (trimChars ((splitOnComma line).getD 2 []))).getD 0 ∧
        (pn (trimChars ((splitOnComma line).getD 0 [])) = none →
          t.ts_ms = 0) ∧
        (pf (trimChars ((splitOnComma line).getD 1 [])) = none → t.bid = 0) ∧
        (pf (trimChars ((splitOnComma line).getD 2 [])) = none →
          t.ask = 0)) ∧
    (∀ t ∈ load_ticks pn pf lines, ∃ l ∈ lines,
      parseTickLine pn pf l = some t) ∧
    (load_ticks pn pf lines).length ≤ lines.length := by
  refine ⟨?_, ?_, ?_, ?_⟩
  · intro h
    simp [parseTickLine, h]
  · intro h
    have hpt : parseTickLine pn pf line =
        some
          { ts_ms := (pn (trimChars ((splitOnComma line).getD 0 []))).getD 0
            bid := (pf (trimChars ((splitOnComma line).getD 1 []))).getD 0
            ask := (pf (trimChars ((splitOnComma line).getD 2 []))).getD 0 } := by
      simp [parseTickLine, Nat.not_lt.mpr h]
    refine ⟨_, hpt, rfl, rfl, rfl, ?_, ?_, ?_⟩
    · intro hn; rw [hn]; rfl
    · intro hn; rw [hn]; rfl
    · intro hn; rw [hn]; rfl
  · intro t ht
    match lines with
    | [] => simp [load_ticks] at ht
    | l0 :: rest =>
      by_cases hh : isTickHeader l0
      · simp only [load_ticks, if_pos hh] at ht
        obtain ⟨l, hl, hpl⟩ := List.mem_filterMap.mp ht
        exact ⟨l, by simp [hl], hpl⟩
      · simp only [load_ticks, if_neg hh] at ht
        obtain ⟨l, hl, hpl⟩ := List.mem_filterMap.mp ht
        exact ⟨l, hl, hpl⟩
  · match lines with
    | [] => simp [load_ticks]
    | l0 :: rest =>
      by_cases hh : isTickHeader l0
      · simp only [load_ticks, if_pos hh]
        have := List.length_filterMap_le (parseTickLine pn pf) rest
        simp only [List.length_cons]
        omega
      · simp only [load_ticks, if_neg hh]
        exact List.length_filterMap_le _ _

/-- Witness for C6: with parsers that reject everything, the short line
"bad" is dropped and the line "1,2,x" still yields one all-zero tick. -/
theorem load_ticks_lenient_witness :
    parseTickLine (fun _ => none) (fun _ => none) "bad".toList = none ∧
    ∃ t, parseTickLine (fun _ => none) (fun _ => none) "1,2,x".toList =
        some t ∧ t.ts_ms = 0 ∧ t.bid = 0 := by
  have h1 := load_ticks_lenient (fun _ => none) (fun _ => none)
    "bad".toList []
  have h2 := load_ticks_lenient (fun _ => none) (fun _ => none)
    "1,2,x".toList []
  obtain ⟨t, hpt, _, _, _, hn, hb, _⟩ := h2.2.1 (by decide)
  exact ⟨h1.1 (by decide), t, hpt, hn rfl, hb rfl⟩

-- -------- C2 -------- --

theorem flushCandle_wf (i : Nat) (s : AggState) (h : StateWf i s) :
    CandleWf i (flushCandle s) := by
  obtain ⟨h1, h2, h3, h4, h5, h6, _⟩ := h
  refine ⟨h1, h2, h3, h4, h5, ?_⟩
  unfold flushCandle
  simp only []
  split
  · exact div_nonneg h6 (by positivity)
  · exact le_refl 0

theorem stepTick_wf (i : Nat) (hi : 0 < i) (s : AggState) (tk : Tick)
    (h : StateWf i s) : StateWf i (stepTick i s tk) := by
  obtain ⟨h1, h2, h3, h4, h5, h6, h7⟩ := h
  by_cases hb : s.bucket_end ≤ tk.ts_ms
  · simp only [stepTick, if_pos hb]
    refine ⟨?_, le_refl _, le_refl _, le_refl _, le_refl _, abs_nonneg _, ?_⟩
    · exact advanceBucket_snd_eq_fst_add tk.ts_ms s.bucket_start s.bucket_end
        i hi h1
    · intro c hc
      rcases List.mem_append.mp hc with hc | hc
      · exact h7 c hc
      · have : c = flushCandle s := by simpa using hc
        subst this
        exact flushCandle_wf i s ⟨h1, h2, h3, h4, h5, h6, h7⟩
  · simp only [stepTick, if_neg hb]
    refine ⟨h1, ?_, ?_, ?_, ?_, ?_, h7⟩
    · split <;> split_ifs <;> linarith
    · split_ifs <;> linarith
    · split_ifs <;> linarith
    · split_ifs <;> linarith
    · have := abs_nonneg (tk.ask - tk.bid)
      simp only [tickSpread]
      linarith

theorem foldl_stepTick_wf (i : Nat) (hi : 0 < i) (l : List Tick) :
    ∀ s, StateWf i s → StateWf i (l.foldl (stepTick i) s) := by
  induction l with
  | nil => intro s h; exact h
  | cons t tl ih =>
    intro s h
    exact ih _ (stepTick_wf i hi s t h)

/-- C2: for every tick sequence with non-decreasing timestamps and every
positive `interval_ms`, every candle emitted by `ticks_to_candles` has
window width `interval_ms`, `low ≤ min(open, close)`,
`high ≥ max(open, close)`, and a nonnegative average spread. -/
theorem ticks_to_candles_invariants (ticks : List Tick) (interval_ms : Nat)
    (hi : 0 < interval_ms) (_hm : TsMono ticks) :
    ∀ c ∈ ticks_to_candles ticks interval_ms,
      c.end_ts - c.start_ts = interval_ms ∧
      c.low ≤ min c.open_ c.close ∧ max c.open_ c.close ≤ c.high ∧
      0 ≤ c.mid_spread := by
  intro c hc
  match ticks with
  | [] => simp [ticks_to_candles] at hc
  | t0 :: rest =>
    have hinit : StateWf interval_ms (initState t0 interval_ms) := by
      refine ⟨rfl, le_refl _, le_refl _, le_refl _, le_refl _, le_refl 0, ?_⟩
      intro c hc
      simp [initState] at hc
    have hfin := foldl_stepTick_wf interval_ms hi (t0 :: rest) _ hinit
    simp only [ticks_to_candles] at hc
    have hcw : CandleWf interval_ms c := by
      rcases List.mem_append.mp hc with hc2 | hc2
      · exact hfin.2.2.2.2.2.2 c hc2
      · have hceq : c = flushCandle (List.foldl (stepTick interval_ms)
            (initState t0 interval_ms) (t0 :: rest)) := by simpa using hc2
        rw [hceq]
        exact flushCandle_wf interval_ms _ hfin
    obtain ⟨w1, w2, w3, w4, w5, w6⟩ := hcw
    refine ⟨by omega, le_min w2 w3, max_le w4 w5, w6⟩

/-- Witness for C2 on a one-tick input. -/
theorem ticks_to_candles_invariants_witness :
    (⟨0, 60000, 1, 1, 1, 1, 0⟩ : Candle).end_ts -
        (⟨0, 60000, 1, 1, 1, 1, 0⟩ : Candle).start_ts = 60000 ∧
    (⟨0, 60000, 1, 1, 1, 1, 0⟩ : Candle).low ≤
        min (⟨0, 60000, 1, 1, 1, 1, 0⟩ : Candle).open_
          (⟨0, 60000, 1, 1, 1, 1, 0⟩ : Candle).close ∧
    max (⟨0, 60000, 1, 1, 1, 1, 0⟩ : Candle).open_
        (⟨0, 60000, 1, 1, 1, 1, 0⟩ : Candle).close ≤
      (⟨0, 60000, 1, 1, 1, 1, 0⟩ : Candle).high ∧
    (0 : ℚ) ≤ (⟨0, 60000, 1, 1, 1, 1, 0⟩ : Candle).mid_spread :=
  ticks_to_candles_invariants [⟨0, 1, 1⟩] 60000 (by decide) (by decide)
    ⟨0, 60000, 1, 1, 1, 1, 0⟩
    (by simp [ticks_to_candles, stepTick, initState, flushCandle, tickSpread])

-- -------- helper lemmas: windows, dedup, filters -------- --

theorem window_mem_self (i t0 ts : Nat) (hi : 0 < i) (h0 : t0 ≤ ts) :
    t0 + windowIdx t0 i ts * i ≤ ts ∧ ts < t0 + windowIdx t0 i ts * i + i := by
  unfold windowIdx
  have h1 : (ts - t0) / i * i ≤ ts - t0 := Nat.div_mul_le_self _ _
  have h2 : (ts - t0) % i < i := Nat.mod_lt _ hi
  have h3 : (ts - t0) / i * i + (ts - t0) % i = ts - t0 := Nat.div_add_mod' _ _
  omega

theorem windowIdx_eq_of_mem (i t0 k ts : Nat) (hi : 0 < i)
    (hlo : t0 + k * i ≤ ts) (hhi : ts < t0 + k * i + i) :
    windowIdx t0 i ts = k := by
  unfold windowIdx
  refine Nat.div_eq_of_lt_le (by omega) ?_
  rw [Nat.succ_mul]
  omega

theorem windowIdx_le_of_le (t0 i : Nat) {a b : Nat} (h : a ≤ b) :
    windowIdx t0 i a ≤ windowIdx t0 i b :=
  Nat.div_le_div_right (Nat.sub_le_sub_right h t0)

theorem le_windowIdx (i t0 ts k : Nat) (hi : 0 < i) (h : t0 + k * i ≤ ts) :
    k ≤ windowIdx t0 i ts := by
  unfold windowIdx
  rw [Nat.le_div_iff_mul_le hi]
  omega

theorem div_split_of_le (i m a : Nat) (hi : 0 < i) (h : m * i ≤ a) :
    a / i = m + (a - m * i) / i := by
  have h1 : a = (a - m * i) + m * i := by omega
  calc a / i = ((a - m * i) + m * i) / i := by rw [← h1]
    _ = (a - m * i) / i + m := Nat.add_mul_div_right _ _ hi
    _ = m + (a - m * i) / i := by omega

theorem windowIdx_flush_decomp (i : Nat) (hi : 0 < i) (t0 tlts tts be : Nat)
    (hbe : be = t0 + windowIdx t0 i tlts * i + i) (_h0 : t0 ≤ tlts)
    (hb : be ≤ tts) :
    windowIdx t0 i tts = windowIdx t0 i tlts + 1 + (tts - be) / i := by
  simp only [windowIdx] at hbe ⊢
  have hm : ((tlts - t0) / i + 1) * i ≤ tts - t0 := by
    rw [Nat.succ_mul]
    omega
  have hsplit := div_split_of_le i ((tlts - t0) / i + 1) (tts - t0) hi hm
  have harg : tts - t0 - ((tlts - t0) / i + 1) * i = tts - be := by
    rw [Nat.succ_mul]
    omega
  rw [hsplit, harg]

theorem dedup_length_append_mem {α : Type} [DecidableEq α] (l : List α)
    (a : α) (h : a ∈ l) : ((l ++ [a]).dedup).length = l.dedup.length := by
  have h2 : ([a] : List α).toFinset = {a} := by simp
  have h1 : (l ++ [a]).toFinset = l.toFinset := by
    rw [List.toFinset_append, h2]
    exact Finset.union_eq_left.mpr (by simpa using h)
  calc ((l ++ [a]).dedup).length = (l ++ [a]).toFinset.card :=
        (List.card_toFinset _).symm
    _ = l.toFinset.card := by rw [h1]
    _ = l.dedup.length := List.card_toFinset l

theorem dedup_length_append_not_mem {α : Type} [DecidableEq α] (l : List α)
    (a : α) (h : a ∉ l) :
    ((l ++ [a]).dedup).length = l.dedup.length + 1 := by
  have h2 : ([a] : List α).toFinset = {a} := by simp
  have h1 : (l ++ [a]).toFinset = insert a l.toFinset := by
    rw [List.toFinset_append, h2, Finset.union_comm, ← Finset.insert_eq]
  calc ((l ++ [a]).dedup).length = (l ++ [a]).toFinset.card :=
        (List.card_toFinset _).symm
    _ = (insert a l.toFinset).card := by rw [h1]
    _ = l.toFinset.card + 1 :=
        Finset.card_insert_of_not_mem (by simpa using h)
    _ = l.dedup.length + 1 := by rw [List.card_toFinset]

theorem ticksBetween_append (p : List Tick) (t : Tick) (lo hi : Nat) :
    ticksBetween (p ++ [t]) lo hi =
      ticksBetween p lo hi ++
        if lo ≤ t.ts_ms ∧ t.ts_ms < hi then [t] else [] := by
  unfold ticksBetween
  rw [List.filter_append]
  congr 1
  by_cases h1 : lo ≤ t.ts_ms <;> by_cases h2 : t.ts_ms < hi <;>
    simp [List.filter_cons, h1, h2]

theorem ticksBetween_all_lt (p : List Tick) (lo hi : Nat)
    (h : ∀ x ∈ p, x.ts_ms < lo) : ticksBetween p lo hi = [] := by
  unfold ticksBetween
  rw [List.filter_eq_nil_iff]
  intro a ha
  have := h a ha
  simp only [Bool.and_eq_true, decide_eq_true_eq, not_and]
  omega

-- -------- C3 / C10 master invariant -------- --

theorem AggInv_init (i : Nat) (hi : 0 < i) (t0 : Tick) :
    AggInv i t0 [t0] t0 (stepTick i (initState t0 i) t0) := by
  have hnb : ¬ ((initState t0 i).bucket_end ≤ t0.ts_ms) := by
    simp only [initState]
    omega
  have hmem : ticksBetween [t0] t0.ts_ms (t0.ts_ms + i) = [t0] := by
    unfold ticksBetween
    simp only [List.filter_cons, List.filter_nil, Bool.and_eq_true,
      decide_eq_true_eq]
    rw [if_pos]
    omega
  simp only [stepTick, if_neg hnb]
  refine ⟨?_, ?_, ?_, ?_, ?_, ?_, ?_⟩
  · simp [initState, windowIdx]
  · simp [initState]
  · simp only [initState]
    rw [hmem]
    rfl
  · simp only [initState]
    rw [hmem]
    simp
  · simp [initState]
  · simp [initState, List.dedup]
  · intro c hc
    simp [initState] at hc

theorem AggInv_step (i : Nat) (hi : 0 < i) (t0 tl t : Tick) (p : List Tick)
    (s : AggState) (hinv : AggInv i t0 p tl s) (h0 : t0.ts_ms ≤ tl.ts_ms)
    (hall : ∀ x ∈ p, x.ts_ms ≤ tl.ts_ms) (htl : tl ∈ p)
    (hle : tl.ts_ms ≤ t.ts_ms) :
    AggInv i t0 (p ++ [t]) t (stepTick i s t) := by
  obtain ⟨hA1, hA2, hcnt, hsum, hcnt1, hlen, hcond⟩ := hinv
  have hw := window_mem_self i t0.ts_ms tl.ts_ms hi h0
  have hbs_le_tl : s.bucket_start ≤ tl.ts_ms := by omega
  have htl_lt_be : tl.ts_ms < s.bucket_end := by omega
  have h0t : t0.ts_ms ≤ t.ts_ms := le_trans h0 hle
  have hwt := window_mem_self i t0.ts_ms t.ts_ms hi h0t
  by_cases hb : s.bucket_end ≤ t.ts_ms
  · -- flush branch: the tick falls past the current bucket
    have hJt : windowIdx t0.ts_ms i t.ts_ms =
        windowIdx t0.ts_ms i tl.ts_ms + 1 + (t.ts_ms - s.bucket_end) / i :=
      windowIdx_flush_decomp i hi t0.ts_ms tl.ts_ms t.ts_ms s.bucket_end
        (by omega) h0 hb
    have hclosed := advanceBucket_closed i hi (t.ts_ms + 1 - s.bucket_end)
      t.ts_ms s.bucket_start s.bucket_end rfl hb
    have hfst : (advanceBucket t.ts_ms s.bucket_start s.bucket_end i).1 =
        s.bucket_end + (t.ts_ms - s.bucket_end) / i * i := by rw [hclosed]
    have hsnd : (advanceBucket t.ts_ms s.bucket_start s.bucket_end i).2 =
        s.bucket_end + (t.ts_ms - s.bucket_end) / i * i + i := by
      rw [hclosed]
    have hnbs_eq : s.bucket_end + (t.ts_ms - s.bucket_end) / i * i =
        t0.ts_ms + windowIdx t0.ts_ms i t.ts_ms * i := by
      rw [hJt, Nat.add_mul, Nat.add_mul, Nat.one_mul]
      omega
    have hfilp : ticksBetween p
        (s.bucket_end + (t.ts_ms - s.bucket_end) / i * i)
        (s.bucket_end + (t.ts_ms - s.bucket_end) / i * i + i) = [] := by
      refine ticksBetween_all_lt p _ _ fun x hx => ?_
      have := hall x hx
      omega
    have hfull : ticksBetween (p ++ [t])
        (s.bucket_end + (t.ts_ms - s.bucket_end) / i * i)
        (s.bucket_end + (t.ts_ms - s.bucket_end) / i * i + i) = [t] := by
      rw [ticksBetween_append, hfilp, if_pos (by omega)]
      rfl
    simp only [stepTick, if_pos hb]
    refine ⟨?_, ?_, ?_, ?_, ?_, ?_, ?_⟩
    · simp only [hfst]
      exact hnbs_eq
    · simp only [hfst, hsnd]
    · simp only [hfst, hsnd, hfull]
      rfl
    · simp only [hfst, hsnd, hfull]
      simp
    · exact le_refl 1
    · simp only [List.map_append, List.map_cons, List.map_nil]
      have hnotmem : windowIdx t0.ts_ms i t.ts_ms ∉
          p.map fun x => windowIdx t0.ts_ms i x.ts_ms := by
        intro hmem
        obtain ⟨x, hx, hxe⟩ := List.mem_map.mp hmem
        have hx1 : windowIdx t0.ts_ms i x.ts_ms ≤
            windowIdx t0.ts_ms i tl.ts_ms := windowIdx_le_of_le _ _ (hall x hx)
        have hx2 : windowIdx t0.ts_ms i x.ts_ms =
            windowIdx t0.ts_ms i t.ts_ms := hxe
        have hx3 : windowIdx t0.ts_ms i tl.ts_ms <
            windowIdx t0.ts_ms i t.ts_ms := by
          rw [hJt]
          exact Nat.lt_add_right _ (Nat.lt_succ_self _)
        omega
      rw [dedup_length_append_not_mem _ _ hnotmem]
      simp only [List.length_append, List.length_cons, List.length_nil]
      omega
    · intro c hc
      rcases List.mem_append.mp hc with hc2 | hc2
      · obtain ⟨hce, hcne, hcmid⟩ := hcond c hc2
        refine ⟨by simp only [hfst]; omega, ?_, ?_⟩
        · unfold ticksInWindow
          rw [ticksBetween_append, if_neg (by omega), List.append_nil]
          exact hcne
        · unfold ticksInWindow
          rw [ticksBetween_append, if_neg (by omega), List.append_nil]
          exact hcmid
      · have hceq : c = flushCandle s := by simpa using hc2
        subst hceq
        have hwin : ticksInWindow (p ++ [t]) (flushCandle s) =
            ticksBetween p s.bucket_start s.bucket_end := by
          unfold ticksInWindow flushCandle
          simp only []
          rw [ticksBetween_append, if_neg (by omega), List.append_nil]
        refine ⟨by simp only [flushCandle, hfst]; omega, ?_, ?_⟩
        · rw [hwin]
          refine List.ne_nil_of_length_pos ?_
          omega
        · rw [hwin]
          simp only [flushCandle]
          rw [if_pos (by omega), hcnt, hsum]
  · -- same-bucket branch
    have htlt : t.ts_ms < s.bucket_end := Nat.not_le.mp hb
    have hJteq : windowIdx t0.ts_ms i t.ts_ms =
        windowIdx t0.ts_ms i tl.ts_ms :=
      windowIdx_eq_of_mem i t0.ts_ms (windowIdx t0.ts_ms i tl.ts_ms) t.ts_ms hi
        (by omega) (by omega)
    have hfull : ticksBetween (p ++ [t]) s.bucket_start s.bucket_end =
        ticksBetween p s.bucket_start s.bucket_end ++ [t] := by
      rw [ticksBetween_append, if_pos (by omega)]
    simp only [stepTick, if_neg hb]
    refine ⟨?_, ?_, ?_, ?_, ?_, ?_, ?_⟩
    · simp only [hJteq]
      exact hA1
    · exact hA2
    · simp only [hfull, List.length_append, List.length_cons, List.length_nil]
      omega
    · simp only [hfull, List.map_append, List.map_cons, List.map_nil,
        List.sum_append, List.sum_cons, List.sum_nil, add_zero]
      rw [hsum]
    · show 1 ≤ s.spread_cnt + 1
      omega
    · simp only [List.map_append, List.map_cons, List.map_nil]
      have hmem : windowIdx t0.ts_ms i t.ts_ms ∈
          p.map fun x => windowIdx t0.ts_ms i x.ts_ms := by
        rw [hJteq]
        exact List.mem_map.mpr ⟨tl, htl, rfl⟩
      rw [dedup_length_append_mem _ _ hmem]
      exact hlen
    · intro c hc
      obtain ⟨hce, hcne, hcmid⟩ := hcond c hc
      refine ⟨hce, ?_, ?_⟩
      · unfold ticksInWindow
        rw [ticksBetween_append, if_neg (by omega), List.append_nil]
        exact hcne
      · unfold ticksInWindow
        rw [ticksBetween_append, if_neg (by omega), List.append_nil]
        exact hcmid

theorem AggInv_run (i : Nat) (hi : 0 < i) (t0 : Tick) :
    ∀ (q p : List Tick) (tl : Tick) (s : AggState),
      AggInv i t0 p tl s → p.getLast? = some tl →
      (∀ x ∈ p, x.ts_ms ≤ tl.ts_ms) → t0.ts_ms ≤ tl.ts_ms →
      (∀ x ∈ q, tl.ts_ms ≤ x.ts_ms) →
      List.Pairwise (fun a b => a.ts_ms ≤ b.ts_ms) q →
      ∃ tl2, AggInv i t0 (p ++ q) tl2 (q.foldl (stepTick i) s) ∧
        (p ++ q).getLast? = some tl2 ∧
        (∀ x ∈ p ++ q, x.ts_ms ≤ tl2.ts_ms) ∧ t0.ts_ms ≤ tl2.ts_ms := by
  intro q
  induction q with
  | nil =>
    intro p tl s h1 h2 h3 h4 _ _
    exact ⟨tl, by simpa using h1, by simpa using h2, by simpa using h3, h4⟩
  | cons t q2 ih =>
    intro p tl s h1 h2 h3 h4 h5 h6
    obtain ⟨hhead, hq2⟩ := List.pairwise_cons.mp h6
    have hstep := AggInv_step i hi t0 tl t p s h1 h4 h3
      (List.mem_of_mem_getLast? h2) (h5 t (by simp))
    have hall2 : ∀ x ∈ p ++ [t], x.ts_ms ≤ t.ts_ms := by
      intro x hx
      rcases List.mem_append.mp hx with hx2 | hx2
      · exact le_trans (h3 x hx2) (h5 t (by simp))
      · have hxt : x = t := by simpa using hx2
        rw [hxt]
    have hrec := ih (p ++ [t]) t (stepTick i s t) hstep
      (List.getLast?_concat p) hall2 (le_trans h4 (h5 t (by simp))) hhead hq2
    obtain ⟨tl2, ha, hb, hc, hd⟩ := hrec
    refine ⟨tl2, ?_, ?_, ?_, hd⟩
    · rw [List.append_cons p t q2]
      simpa using ha
    · rw [List.append_cons p t q2]
      exact hb
    · rw [List.append_cons p t q2]
      exact hc

-- -------- C3 -------- --

/-- C3: for non-decreasing ticks and positive `interval_ms` the number
of candles equals the number of distinct width-`interval_ms` windows
(anchored at the first tick, gaps skipped) containing at least one tick;
the empty input yields an empty output; and the last tick's timestamp
lies in the half-open window of the last emitted candle (so the trailing
in-progress bucket is always flushed). -/
theorem ticks_to_candles_window_count (ticks : List Tick)
    (interval_ms : Nat) (hi : 0 < interval_ms) (hm : TsMono ticks) :
    (ticks_to_candles ticks interval_ms).length =
        numWindows ticks interval_ms ∧
    (ticks = [] → ticks_to_candles ticks interval_ms = []) ∧
    ∀ tlast clast, ticks.getLast? = some tlast →
      (ticks_to_candles ticks interval_ms).getLast? = some clast →
      clast.start_ts ≤ tlast.ts_ms ∧ tlast.ts_ms < clast.end_ts := by
  match ticks with
  | [] =>
    refine ⟨by simp [ticks_to_candles, numWindows], fun _ => rfl, ?_⟩
    intro tlast clast h _
    simp at h
  | t0 :: rest =>
    obtain ⟨hhead, hq⟩ := List.pairwise_cons.mp hm
    obtain ⟨tl2, hinv, hlast, hmax, ht0⟩ := AggInv_run interval_ms hi t0 rest
      [t0] t0 (stepTick interval_ms (initState t0 interval_ms) t0)
      (AggInv_init interval_ms hi t0) rfl (by simp) (le_refl _)
      (fun x hx => hhead x hx) hq
    simp only [List.singleton_append] at hinv hlast hmax
    obtain ⟨hA1, hA2, hcnt, hsum, hcnt1, hlen, hcond⟩ := hinv
    have hfold : List.foldl (stepTick interval_ms)
        (initState t0 interval_ms) (t0 :: rest) =
        rest.foldl (stepTick interval_ms)
          (stepTick interval_ms (initState t0 interval_ms) t0) := rfl
    refine ⟨?_, fun h => (List.cons_ne_nil t0 rest h).elim, ?_⟩
    · simp only [ticks_to_candles, numWindows, hfold, List.length_append,
        List.length_cons, List.length_nil]
      omega
    · intro tlast clast hlt hlc
      have htle : tlast = tl2 := by
        rw [hlast] at hlt
        exact (Option.some.inj hlt).symm
      subst htle
      have hceq : clast = flushCandle (rest.foldl (stepTick interval_ms)
          (stepTick interval_ms (initState t0 interval_ms) t0)) := by
        simp only [ticks_to_candles, hfold, List.getLast?_concat] at hlc
        exact (Option.some.inj hlc).symm
      subst hceq
      have hw := window_mem_self interval_ms t0.ts_ms tlast.ts_ms hi ht0
      constructor
      · show (rest.foldl (stepTick interval_ms)
            (stepTick interval_ms (initState t0 interval_ms) t0)).bucket_start
            ≤ tlast.ts_ms
        omega
      · show tlast.ts_ms < (rest.foldl (stepTick interval_ms)
            (stepTick interval_ms (initState t0 interval_ms) t0)).bucket_end
        omega

/-- Witness for C3 at the three-tick input of C1. -/
theorem ticks_to_candles_window_count_witness :
    (ticks_to_candles [⟨0, 1, 1⟩, ⟨30000, 1, 1⟩, ⟨70000, 2, 2⟩]
        60000).length =
      numWindows [⟨0, 1, 1⟩, ⟨30000, 1, 1⟩, ⟨70000, 2, 2⟩] 60000 ∧
    (⟨60000, 120000, 2, 2, 2, 2, 0⟩ : Candle).start_ts ≤
        (⟨70000, 2, 2⟩ : Tick).ts_ms ∧
    (⟨70000, 2, 2⟩ : Tick).ts_ms <
      (⟨60000, 120000, 2, 2, 2, 2, 0⟩ : Candle).end_ts := by
  have h := ticks_to_candles_window_count
    [⟨0, 1, 1⟩, ⟨30000, 1, 1⟩, ⟨70000, 2, 2⟩] 60000 (by decide) (by decide)
  refine ⟨h.1, ?_⟩
  exact h.2.2 ⟨70000, 2, 2⟩ ⟨60000, 120000, 2, 2, 2, 2, 0⟩ (by decide)
    (by simp [ticks_to_candles, stepTick, initState, flushCandle,
      advanceBucket, advanceBucketFuel, tickSpread])

-- -------- C10 -------- --

/-- C10: for a non-empty non-decreasing tick sequence and positive
`interval_ms`, every emitted candle has at least one contributing tick
(its window contains a tick, so the zero-count fallback of the average
spread is never used) and its `mid_spread` is the arithmetic mean of
`|ask - bid|` over the input ticks inside its window. -/
theorem ticks_to_candles_mid_spread_mean (ticks : List Tick)
    (interval_ms : Nat) (hi : 0 < interval_ms) (hm : TsMono ticks)
    (hne : ticks ≠ []) :
    ∀ c ∈ ticks_to_candles ticks interval_ms,
      ticksInWindow ticks c ≠ [] ∧
      c.mid_spread = ((ticksInWindow ticks c).map tickSpread).sum /
        ((ticksInWindow ticks c).length : ℚ) := by
  match ticks with
  | [] => exact absurd rfl hne
  | t0 :: rest =>
    intro c hc
    obtain ⟨hhead, hq⟩ := List.pairwise_cons.mp hm
    obtain ⟨tl2, hinv, hlast, hmax, ht0⟩ := AggInv_run interval_ms hi t0 rest
      [t0] t0 (stepTick interval_ms (initState t0 interval_ms) t0)
      (AggInv_init interval_ms hi t0) rfl (by simp) (le_refl _)
      (fun x hx => hhead x hx) hq
    simp only [List.singleton_append] at hinv
    obtain ⟨hA1, hA2, hcnt, hsum, hcnt1, hlen, hcond⟩ := hinv
    have hfold : List.foldl (stepTick interval_ms)
        (initState t0 interval_ms) (t0 :: rest) =
        rest.foldl (stepTick interval_ms)
          (stepTick interval_ms (initState t0 interval_ms) t0) := rfl
    simp only [ticks_to_candles, hfold] at hc
    rcases List.mem_append.mp hc with hc2 | hc2
    · obtain ⟨_, hcne, hcmid⟩ := hcond c hc2
      exact ⟨hcne, hcmid⟩
    · have hceq : c = flushCandle (rest.foldl (stepTick interval_ms)
          (stepTick interval_ms (initState t0 interval_ms) t0)) := by
        simpa using hc2
      subst hceq
      have hwin : ticksInWindow (t0 :: rest)
          (flushCandle (rest.foldl (stepTick interval_ms)
            (stepTick interval_ms (initState t0 interval_ms) t0))) =
          ticksBetween (t0 :: rest)
            (rest.foldl (stepTick interval_ms)
              (stepTick interval_ms (initState t0 interval_ms) t0)).bucket_start
            (rest.foldl (stepTick interval_ms)
              (stepTick interval_ms (initState t0 interval_ms) t0)).bucket_end
          := rfl
      rw [hwin]
      constructor
      · refine List.ne_nil_of_length_pos ?_
        omega
      · show (if 0 < (rest.foldl (stepTick interval_ms)
            (stepTick interval_ms (initState t0 interval_ms) t0)).spread_cnt
            then (rest.foldl (stepTick interval_ms)
                (stepTick interval_ms (initState t0 interval_ms)
                  t0)).spread_sum /
              ((rest.foldl (stepTick interval_ms)
                (stepTick interval_ms (initState t0 interval_ms)
                  t0)).spread_cnt : ℚ)
            else 0) = _
        rw [if_pos (by omega), hcnt, hsum]

/-- Witness for C10 at the three-tick input of C1. -/
theorem ticks_to_candles_mid_spread_mean_witness :
    ticksInWindow [⟨0, 1, 1⟩, ⟨30000, 1, 1⟩, ⟨70000, 2, 2⟩]
        ⟨0, 60000, 1, 1, 1, 1, 0⟩ ≠ [] ∧
    (⟨0, 60000, 1, 1, 1, 1, 0⟩ : Candle).mid_spread =
      ((ticksInWindow [⟨0, 1, 1⟩, ⟨30000, 1, 1⟩, ⟨70000, 2, 2⟩]
          ⟨0, 60000, 1, 1, 1, 1, 0⟩).map tickSpread).sum /
        ((ticksInWindow [⟨0, 1, 1⟩, ⟨30000, 1, 1⟩, ⟨70000, 2, 2⟩]
          ⟨0, 60000, 1, 1, 1, 1, 0⟩).length : ℚ) :=
  ticks_to_candles_mid_spread_mean
    [⟨0, 1, 1⟩, ⟨30000, 1, 1⟩, ⟨70000, 2, 2⟩] 60000 (by decide) (by decide)
    (by decide) ⟨0, 60000, 1, 1, 1, 1, 0⟩
    (by simp [ticks_to_candles, stepTick, initState, flushCandle,
      advanceBucket, advanceBucketFuel, tickSpread])
